import Mathlib

/-!
# AudioV core — verification of the MIDI-sheet pipeline

Shallow embedding of the algorithmic core of the AudioV repository:

* `src/audiov/midi_sheet.py` — tempo-map collection (`_collect_tempo_map`),
  tick-to-seconds conversion (`_tick_to_seconds`), note assembly
  (`parse_midi_notes`) and pitch normalization (`normalize_notes`);
* `scripts/run_step1_blender.py` — second-to-frame conversion
  (`_sec_to_frame`), the bounce pulse keyframes emitted by
  `animate_bounce_and_flash`, and the path-follow ramp emitted by
  `animate_drop_follow_path`.

Python `float` arithmetic is embedded as exact rational arithmetic (`ℚ`);
Python `int` as `ℤ`; MIDI delta times (which are non-negative in a decoded
track) as `ℕ`.  The fallible list indexing `tempo_map[0]` is embedded by
returning `Option`.  Python's `round` (banker's rounding, halves to even)
is embedded as `pyRound`.  Python `dict` insertion/updating is embedded by
an association list that updates in place and appends fresh keys, matching
the insertion-order semantics of `dict`; Python's stable `list.sort` is
embedded as `List.insertionSort`, which is stable.
-/

/-- Python `round` on an exact rational: round half to even (banker's
rounding), as Python 3 `round` does. -/
def pyRound (q : ℚ) : ℤ :=
  let f := ⌊q⌋
  let frac := q - f
  if frac < 1/2 then f
  else if 1/2 < frac then f + 1
  else if f % 2 = 0 then f else f + 1

/-- `mido.tick2second(tick, ticks_per_beat, tempo)`:
`tick * (tempo * 1e-6 / ticks_per_beat)` seconds, in exact arithmetic. -/
def tick2second (tick tpq tempo : ℤ) : ℚ :=
  (tick : ℚ) * ((tempo : ℚ) * (1 / 1000000) / (tpq : ℚ))

/-- The segment walk of `_tick_to_seconds` (`midi_sheet.py` lines 48–65):
starting from the current segment `(prev_tick, prev_tempo)` and the running
total, walk the remaining tempo changes; a change at `change_tick ≥ tick`
stops the walk; each earlier change closes the current segment and adds its
duration (when positive) at the segment's own tempo; finally the remainder
up to `tick` (when positive) is added at the last segment's tempo.  The
accumulator is made recursive (sums in `ℚ` are associative). -/
def restSeconds (tick tpq : ℤ) : ℤ → ℤ → List (ℤ × ℤ) → ℚ
  | prev_tick, prev_tempo, [] =>
      if 0 < tick - prev_tick then tick2second (tick - prev_tick) tpq prev_tempo else 0
  | prev_tick, prev_tempo, (change_tick, change_tempo) :: rest =>
      if tick ≤ change_tick then
        (if 0 < tick - prev_tick then tick2second (tick - prev_tick) tpq prev_tempo else 0)
      else
        (if 0 < change_tick - prev_tick then
            tick2second (change_tick - prev_tick) tpq prev_tempo
          else 0)
          + restSeconds tick tpq change_tick change_tempo rest

/-- `_tick_to_seconds(tick, tpq, tempo_map)` (`midi_sheet.py` lines 43–65).
For `tick ≤ 0` it returns `0.0`; otherwise it reads `tempo_map[0]`
unguarded — an empty tempo map raises `IndexError`, embedded as `none` —
and walks the remaining segments. -/
def tick_to_seconds (tick tpq : ℤ) (tempo_map : List (ℤ × ℤ)) : Option ℚ :=
  if tick ≤ 0 then some 0
  else
    match tempo_map with
    | [] => none
    | (t0, m0) :: rest => some (restSeconds tick tpq t0 m0 rest)

example : tick_to_seconds 480 480 [(0, 500000)] = some (1/2) := by
  norm_num [tick_to_seconds, restSeconds, tick2second]
example : tick_to_seconds 480 480 [(0, 500000), (480, 250000)] = some (1/2) := by
  norm_num [tick_to_seconds, restSeconds, tick2second]
example : tick_to_seconds 960 480 [(0, 500000), (480, 250000)] = some (3/4) := by
  norm_num [tick_to_seconds, restSeconds, tick2second]

/-- The payload of a decoded MIDI message: the three message kinds the core
reads, and `other` for every message type it ignores. -/
inductive MsgData
  | note_on (channel pitch velocity : ℤ)
  | note_off (channel pitch velocity : ℤ)
  | set_tempo (tempo : ℤ)
  | other
deriving DecidableEq

/-- A decoded track message: non-negative delta time in ticks plus payload. -/
structure MidiMsg where
  time : ℕ
  data : MsgData
deriving DecidableEq

/-- Python `dict` assignment `d[k] = v` viewed as an association list:
an existing key is updated in place, a fresh key is appended (insertion
order, as `dict` preserves it). -/
def dictInsert {κ β : Type} [DecidableEq κ] (d : List (κ × β)) (k : κ) (v : β) :
    List (κ × β) :=
  if d.any fun p => decide (p.1 = k) then
    d.map fun p => if p.1 = k then (k, v) else p
  else d ++ [(k, v)]

/-- Python `k in d` / `d[k]` lookup on the association-list dict. -/
def dictGet? {κ β : Type} [DecidableEq κ] (d : List (κ × β)) (k : κ) : Option β :=
  (d.find? fun p => decide (p.1 = k)).map Prod.snd

/-- Python `d.pop(k)` on the association-list dict (the entry is removed). -/
def dictPop {κ β : Type} [DecidableEq κ] (d : List (κ × β)) (k : κ) : List (κ × β) :=
  d.eraseP fun p => decide (p.1 = k)

/-- Comparison of `(tick, tempo)` pairs by tick, the key used by both
`changes.sort(key=lambda x: x[0])` and `sorted(dedup.items(), key=...)`. -/
def keyLE (p q : ℤ × ℤ) : Prop := p.1 ≤ q.1

instance : DecidableRel keyLE := fun p q => Int.decLe p.1 q.1

instance : IsTotal (ℤ × ℤ) keyLE := ⟨fun a b => Int.le_total a.1 b.1⟩

instance : IsTrans (ℤ × ℤ) keyLE := ⟨fun _ _ _ hab hbc => le_trans hab hbc⟩

/-- The per-track scan of `_collect_tempo_map` (`midi_sheet.py` lines 23–28):
keep an absolute-tick cursor (running sum of delta times) and record every
`set_tempo` message as `(abs_tick, tempo)`. -/
def scanTempoTrack : ℤ → List MidiMsg → List (ℤ × ℤ)
  | _, [] => []
  | abs_tick, m :: rest =>
    match m.data with
    | MsgData.set_tempo t =>
        (abs_tick + (m.time : ℤ), t) :: scanTempoTrack (abs_tick + (m.time : ℤ)) rest
    | _ => scanTempoTrack (abs_tick + (m.time : ℤ)) rest

/-- The `changes` list of `_collect_tempo_map` before sorting: the seeded
default `(0, 500000)` followed by every track's recorded tempo changes in
scan order. -/
def collectChanges (tracks : List (List MidiMsg)) : List (ℤ × ℤ) :=
  (0, 500000) :: (tracks.map (scanTempoTrack 0)).flatten

/-- The final guard of `_collect_tempo_map` (`midi_sheet.py` lines 38–39):
`if not out or out[0][0] != 0: out.insert(0, (0, 500000))`. -/
def seedZero : List (ℤ × ℤ) → List (ℤ × ℤ)
  | [] => [(0, 500000)]
  | (t, m) :: rest => if t ≠ 0 then (0, 500000) :: (t, m) :: rest else (t, m) :: rest

/-- The sort–deduplicate–sort middle of `_collect_tempo_map` (`midi_sheet.py`
lines 30–37): stable-sort the changes by tick, deduplicate same-tick changes
through a dict (keep last), and sort the dict items by tick. -/
def dedupSort (changes : List (ℤ × ℤ)) : List (ℤ × ℤ) :=
  List.insertionSort keyLE
    ((List.insertionSort keyLE changes).foldl (fun d p => dictInsert d p.1 p.2) [])

/-- `_collect_tempo_map` (`midi_sheet.py` lines 20–40): collect the changes,
sort and deduplicate them, and seed `(0, 500000)` in front when the first
entry is not at tick 0. -/
def collect_tempo_map (tracks : List (List MidiMsg)) : List (ℤ × ℤ) :=
  seedZero (dedupSort (collectChanges tracks))

example :
    collect_tempo_map [[⟨0, MsgData.set_tempo 400000⟩, ⟨5, MsgData.set_tempo 300000⟩],
      [⟨5, MsgData.set_tempo 200000⟩]] = [(0, 400000), (5, 200000)] := by decide

/-- `NoteEvent` (`midi_sheet.py` lines 10–17), with seconds as exact
rationals. -/
structure NoteEvent where
  start_s : ℚ
  end_s : ℚ
  pitch : ℤ
  velocity : ℤ
  channel : ℤ
  track : ℤ
deriving DecidableEq

/-- The note-off branch of `parse_midi_notes` (`midi_sheet.py` lines 88–108):
an inactive key is ignored; an active key is popped, its interval converted
to seconds, and a `NoteEvent` appended unless `end_s ≤ start_s`.  `none`
signals a failed `_tick_to_seconds` call (unreachable inside the pipeline,
whose tempo map is never empty). -/
def noteOffStep (tpq : ℤ) (tm : List (ℤ × ℤ)) (track_idx abs_tick ch p : ℤ)
    (active : List ((ℤ × ℤ) × ℤ × ℤ)) (events : List NoteEvent) :
    Option (List ((ℤ × ℤ) × ℤ × ℤ) × List NoteEvent) :=
  match dictGet? active (ch, p) with
  | none => some (active, events)
  | some (start_tick, vel) =>
    match tick_to_seconds start_tick tpq tm, tick_to_seconds abs_tick tpq tm with
    | some start_s, some end_s =>
      if end_s ≤ start_s then some (dictPop active (ch, p), events)
      else some (dictPop active (ch, p),
        events ++ [⟨start_s, end_s, p, vel, ch, track_idx⟩])
    | _, _ => none

/-- The per-track message loop of `parse_midi_notes` (`midi_sheet.py`
lines 82–108): advance the absolute tick by each delta; a `note_on` with
positive velocity records `(abs_tick, velocity)` for its `(channel, pitch)`
key (overwriting any pending onset); a `note_off`, or `note_on` with zero
velocity, closes the key via `noteOffStep`; other messages are skipped. -/
def processMsgs (tpq : ℤ) (tm : List (ℤ × ℤ)) (track_idx : ℤ) :
    ℤ → List ((ℤ × ℤ) × ℤ × ℤ) → List NoteEvent → List MidiMsg →
      Option (List NoteEvent)
  | _, _, events, [] => some events
  | abs_tick, active, events, m :: rest =>
    match m.data with
    | MsgData.note_on ch p v =>
      if 0 < v then
        processMsgs tpq tm track_idx (abs_tick + (m.time : ℤ))
          (dictInsert active (ch, p) (abs_tick + (m.time : ℤ), v)) events rest
      else if v = 0 then
        match noteOffStep tpq tm track_idx (abs_tick + (m.time : ℤ)) ch p active events with
        | none => none
        | some (a, e) => processMsgs tpq tm track_idx (abs_tick + (m.time : ℤ)) a e rest
      else processMsgs tpq tm track_idx (abs_tick + (m.time : ℤ)) active events rest
    | MsgData.note_off ch p _ =>
      match noteOffStep tpq tm track_idx (abs_tick + (m.time : ℤ)) ch p active events with
      | none => none
      | some (a, e) => processMsgs tpq tm track_idx (abs_tick + (m.time : ℤ)) a e rest
    | _ => processMsgs tpq tm track_idx (abs_tick + (m.time : ℤ)) active events rest

/-- The track loop of `parse_midi_notes` (`midi_sheet.py` lines 78–108):
each track starts with tick 0 and an empty active dict; emitted events
accumulate across tracks; keys still active at end of track are dropped. -/
def processTracks (tpq : ℤ) (tm : List (ℤ × ℤ)) :
    ℤ → List NoteEvent → List (List MidiMsg) → Option (List NoteEvent)
  | _, events, [] => some events
  | idx, events, tr :: rest =>
    match processMsgs tpq tm idx 0 [] events tr with
    | none => none
    | some events' => processTracks tpq tm (idx + 1) events' rest

/-- The final sort key of `parse_midi_notes`:
`events.sort(key=lambda e: (e.start_s, e.pitch))`, i.e. lexicographic
order on `(start_s, pitch)`. -/
def noteLE (a b : NoteEvent) : Prop :=
  a.start_s < b.start_s ∨ (a.start_s = b.start_s ∧ a.pitch ≤ b.pitch)

instance : DecidableRel noteLE := fun _ _ =>
  inferInstanceAs (Decidable (_ ∨ _))

instance : IsTotal NoteEvent noteLE := by
  constructor
  intro a b
  rcases lt_trichotomy a.start_s b.start_s with h | h | h
  · exact Or.inl (Or.inl h)
  · rcases le_total a.pitch b.pitch with hp | hp
    · exact Or.inl (Or.inr ⟨h, hp⟩)
    · exact Or.inr (Or.inr ⟨h.symm, hp⟩)
  · exact Or.inr (Or.inl h)

instance : IsTrans NoteEvent noteLE := by
  constructor
  intro a b c hab hbc
  rcases hab with hab | ⟨hab, hab'⟩
  · rcases hbc with hbc | ⟨hbc, _⟩
    · exact Or.inl (hab.trans hbc)
    · exact Or.inl (hbc ▸ hab)
  · rcases hbc with hbc | ⟨hbc, hbc'⟩
    · exact Or.inl (hab ▸ hbc)
    · exact Or.inr ⟨hab.trans hbc, hab'.trans hbc'⟩

/-- `parse_midi_notes` (`midi_sheet.py` lines 68–111) on decoded tracks:
build the tempo map, run the per-track state machines, and stable-sort the
emitted events by `(start_s, pitch)`.  (The file-existence check and SMF
decoding are the external collaborator's side, outside the core.) -/
def parse_midi_notes (tracks : List (List MidiMsg)) (tpq : ℤ) :
    Option (List NoteEvent) :=
  (processTracks tpq (collect_tempo_map tracks) 0 [] tracks).map
    (List.insertionSort noteLE)

/-- Python `min` over a non-empty iterable, as a left fold. -/
def foldlMin (a : ℤ) (l : List ℤ) : ℤ := l.foldl min a

/-- Python `max` over a non-empty iterable, as a left fold. -/
def foldlMax (a : ℤ) (l : List ℤ) : ℤ := l.foldl max a

/-- `normalize_notes` (`midi_sheet.py` lines 114–126): empty input gives
`([], 0, 0)`; otherwise the bounds default to the minimum/maximum pitch
present and the notes are filtered to `pmin ≤ pitch ≤ pmax` in order. -/
def normalize_notes (notes : List NoteEvent) (pitch_min pitch_max : Option ℤ) :
    List NoteEvent × ℤ × ℤ :=
  match notes with
  | [] => ([], 0, 0)
  | n :: ns =>
    let pmin := match pitch_min with
      | some v => v
      | none => foldlMin n.pitch (ns.map NoteEvent.pitch)
    let pmax := match pitch_max with
      | some v => v
      | none => foldlMax n.pitch (ns.map NoteEvent.pitch)
    ((n :: ns).filter fun e => decide (pmin ≤ e.pitch) && decide (e.pitch ≤ pmax),
      pmin, pmax)

/-- `_sec_to_frame` (`run_step1_blender.py` lines 252–253):
`max(1, int(round(sec * fps)) + 1)`. -/
def sec_to_frame (sec : ℚ) (fps : ℤ) : ℤ := max 1 (pyRound (sec * (fps : ℚ)) + 1)

/-- The bounce keyframes inserted by `animate_bounce_and_flash`
(`run_step1_blender.py` lines 292–321), as a pure envelope: nothing for an
empty note list; otherwise per note the 3-point pulse at
`f0`, `f0 + bounce_len_f // 2` and `f0 + bounce_len_f` with values
`base_z`, `base_z + bounce_amp`, `base_z`. -/
def bounceKeyframes (notes : List NoteEvent) (fps : ℤ) (base_z bounce_amp : ℚ)
    (bounce_len_s : ℚ) : List (ℤ × ℚ) :=
  match notes with
  | [] => []
  | _ :: _ =>
    let bounce_len_f := max 2 (pyRound (bounce_len_s * (fps : ℚ)))
    notes.foldl (fun acc n =>
      let f0 := sec_to_frame n.start_s fps
      acc ++ [(f0, base_z), (f0 + bounce_len_f.fdiv 2, base_z + bounce_amp),
        (f0 + bounce_len_f, base_z)]) []

/-- The offset-factor keyframes inserted by `animate_drop_follow_path`
(`run_step1_blender.py` lines 256–277):
`end_frame = start_frame + round(total_duration_s * fps)`, bumped to
`start_frame + 1` when not strictly greater, then the 2-point ramp. -/
def pathFollowKeyframes (fps : ℤ) (total_duration_s : ℚ) (start_frame : ℤ) :
    List (ℤ × ℚ) :=
  let e := start_frame + pyRound (total_duration_s * (fps : ℚ))
  let end_frame := if e ≤ start_frame then start_frame + 1 else e
  [(start_frame, (0 : ℚ)), (end_frame, (1 : ℚ))]


/-! ## Claim theorems: concrete scenarios -/

/-- C1: the tick-to-time converter computes the piecewise-constant tempo
integral exactly on concrete inputs: with tempo map `[(0, 500000)]` and
`ticks_per_beat = 480`, `seconds 480 = 0.5`; with tempo map
`[(0, 500000), (480, 250000)]`, `seconds 480 = 0.5` and
`seconds 960 = 0.75`. -/
theorem C1_converter_concrete_values :
    tick_to_seconds 480 480 [(0, 500000)] = some (1/2) ∧
    tick_to_seconds 480 480 [(0, 500000), (480, 250000)] = some (1/2) ∧
    tick_to_seconds 960 480 [(0, 500000), (480, 250000)] = some (3/4) := by
  refine ⟨?_, ?_, ?_⟩ <;> norm_num [tick_to_seconds, restSeconds, tick2second]

/-- C3: for the single-track sequence `note_on(ch 0, p 60, v 100)` at tick 0,
`note_on(ch 0, p 60, v 90)` at tick 10 and `note_off(ch 0, p 60)` at tick 20
(with `ticks_per_beat = 480`), the assembler emits exactly one `NoteEvent`,
with velocity 90 and onset at the seconds of start tick 10 (the overwritten
first onset emits nothing). -/
theorem C3_overwrite_single_note :
    parse_midi_notes [[⟨0, MsgData.note_on 0 60 100⟩, ⟨10, MsgData.note_on 0 60 90⟩,
        ⟨10, MsgData.note_off 0 60 0⟩]] 480 = some [⟨1/96, 1/48, 60, 90, 0, 0⟩] ∧
    tick_to_seconds 10 480
      (collect_tempo_map [[⟨0, MsgData.note_on 0 60 100⟩, ⟨10, MsgData.note_on 0 60 90⟩,
        ⟨10, MsgData.note_off 0 60 0⟩]]) = some (1/96) ∧
    tick_to_seconds 20 480
      (collect_tempo_map [[⟨0, MsgData.note_on 0 60 100⟩, ⟨10, MsgData.note_on 0 60 90⟩,
        ⟨10, MsgData.note_off 0 60 0⟩]]) = some (1/48) := by
  refine ⟨?_, ?_, ?_⟩ <;>
    norm_num [parse_midi_notes, processTracks, processMsgs, noteOffStep, dictGet?,
      dictPop, dictInsert, collect_tempo_map, seedZero, dedupSort, collectChanges, scanTempoTrack,
      tick_to_seconds, restSeconds, tick2second, keyLE, noteLE, List.find?, List.eraseP]

/-- C5: for one note with `start_s = 1.0` at `fps = 30`, bounce duration
`0.1 s` and amplitude `amp`: `frame(1.0) = 31`, the pulse length is
`max(2, round(0.1 × 30)) = 3`, the mid-point uses floor division
`31 + 3 // 2 = 32`, the end frame is `34`, and the bounce envelope is the
3-point pulse `[(31, 0), (32, amp), (34, 0)]`. -/
theorem C5_bounce_pulse_scenario (amp e_s : ℚ) (pitch velocity channel track : ℤ) :
    sec_to_frame 1 30 = 31 ∧
    max 2 (pyRound ((1/10 : ℚ) * (30 : ℚ))) = 3 ∧
    (31 : ℤ) + (3 : ℤ).fdiv 2 = 32 ∧
    (31 : ℤ) + 3 = 34 ∧
    bounceKeyframes [⟨1, e_s, pitch, velocity, channel, track⟩] 30 0 amp (1/10) =
      [(31, 0), (32, amp), (34, 0)] := by
  refine ⟨?_, ?_, by decide, by decide, ?_⟩ <;>
    norm_num [bounceKeyframes, sec_to_frame, pyRound, Int.fdiv]

/-- C6: the path-follow envelope's end frame is
`start_frame + round(total_duration_s × fps)` bumped to `start_frame + 1`
whenever that is not strictly greater than `start_frame` (i.e. it is the
max of the two), so the ramp always spans at least one frame; in
particular with `start_frame = 1`, `total_duration_s = 0`, `fps = 30` the
end frame is 2. -/
theorem C6_path_follow_end_frame (fps start_frame : ℤ) (total_duration_s : ℚ) :
    pathFollowKeyframes fps total_duration_s start_frame =
      [(start_frame, 0),
        (max (start_frame + 1) (start_frame + pyRound (total_duration_s * (fps : ℚ))), 1)] ∧
    start_frame <
      max (start_frame + 1) (start_frame + pyRound (total_duration_s * (fps : ℚ))) ∧
    pathFollowKeyframes 30 0 1 = [(1, 0), (2, 1)] := by
  refine ⟨?_, ?_, ?_⟩
  · unfold pathFollowKeyframes
    rcases le_or_lt (start_frame + pyRound (total_duration_s * (fps : ℚ))) start_frame with h | h
    · simp only [if_pos h]
      have : max (start_frame + 1) (start_frame + pyRound (total_duration_s * (fps : ℚ))) =
          start_frame + 1 := max_eq_left (by omega)
      rw [this]
    · simp only [if_neg (not_le.mpr h)]
      have : max (start_frame + 1) (start_frame + pyRound (total_duration_s * (fps : ℚ))) =
          start_frame + pyRound (total_duration_s * (fps : ℚ)) := max_eq_right (by omega)
      rw [this]
  · have := le_max_left (start_frame + 1)
      (start_frame + pyRound (total_duration_s * (fps : ℚ)))
    omega
  · norm_num [pathFollowKeyframes, pyRound]

/-- Every tempo map the builder produces starts with an entry at tick 0:
in all three result shapes of `_collect_tempo_map` the first element has
tick 0. -/
theorem collect_tempo_map_head (tracks : List (List MidiMsg)) :
    ∃ m rest, collect_tempo_map tracks = (0, m) :: rest := by
  unfold collect_tempo_map
  generalize dedupSort (collectChanges tracks) = out
  match out with
  | [] => exact ⟨500000, [], rfl⟩
  | (t, m) :: rest =>
    by_cases h : t = 0
    · subst h
      exact ⟨m, rest, by simp [seedZero]⟩
    · exact ⟨500000, (t, m) :: rest, by simp [seedZero, h]⟩

/-- C9: an empty note list is a valid, non-error state at every stage:
the assembler returns `some []` on empty input, `normalize_notes` returns
`([], 0, 0)` on `[]` whatever bounds are supplied, the bounce generator
returns an (empty, well-formed) envelope, and the path-follow generator at
duration 0 still produces the minimal ramp spanning exactly one frame. -/
theorem C9_empty_inputs_valid :
    (∀ tpq : ℤ, parse_midi_notes [] tpq = some []) ∧
    (∀ pitch_min pitch_max : Option ℤ, normalize_notes [] pitch_min pitch_max = ([], 0, 0)) ∧
    (∀ fps : ℤ, ∀ base_z bounce_amp bounce_len_s : ℚ,
      bounceKeyframes [] fps base_z bounce_amp bounce_len_s = []) ∧
    (∀ fps start_frame : ℤ,
      pathFollowKeyframes fps 0 start_frame = [(start_frame, 0), (start_frame + 1, 1)]) := by
  refine ⟨?_, ?_, ?_, ?_⟩
  · intro tpq
    simp [parse_midi_notes, processTracks]
  · intro pitch_min pitch_max
    rfl
  · intro fps base_z bounce_amp bounce_len_s
    rfl
  · intro fps start_frame
    have h0 : pyRound (0 : ℚ) = 0 := by norm_num [pyRound]
    simp [pathFollowKeyframes, h0]

/-- C10: the converter reads `tempo_map[0]` unguarded for every positive
tick, so it is total only on non-empty tempo maps: with an empty map and
`tick > 0` it fails (`none`); the builder's output always starts with a
tick-0 entry, hence is never empty, so inside the pipeline the failure is
unreachable and the converter always returns a value. -/
theorem C10_converter_partiality :
    (∀ tick tpq : ℤ, 0 < tick → tick_to_seconds tick tpq [] = none) ∧
    (∀ tracks : List (List MidiMsg), ∃ m rest, collect_tempo_map tracks = (0, m) :: rest) ∧
    (∀ (tick tpq : ℤ) (tm : List (ℤ × ℤ)), tm ≠ [] →
      ∃ s, tick_to_seconds tick tpq tm = some s) := by
  refine ⟨?_, collect_tempo_map_head, ?_⟩
  · intro tick tpq h
    simp [tick_to_seconds, not_le.mpr h]
  · intro tick tpq tm htm
    match tm with
    | (t0, m0) :: rest =>
      by_cases h : tick ≤ 0
      · exact ⟨0, by simp [tick_to_seconds, h]⟩
      · exact ⟨restSeconds tick tpq t0 m0 rest, by simp [tick_to_seconds, h]⟩

/-- C10 witness: the third conjunct instantiated at tick 7, `tpq` 480 and
the singleton default map. -/
theorem C10_witness : ∃ s, tick_to_seconds 7 480 [(0, 500000)] = some s :=
  C10_converter_partiality.2.2 7 480 [(0, 500000)] (by simp)

/-! ## C8: default-bound normalization is a no-op -/

theorem foldlMin_le_init (l : List ℤ) : ∀ a : ℤ, foldlMin a l ≤ a := by
  induction l with
  | nil => intro a; exact le_refl a
  | cons x l ih =>
    intro a
    calc foldlMin (min a x) l ≤ min a x := ih (min a x)
      _ ≤ a := min_le_left a x

theorem foldlMin_le_mem (l : List ℤ) : ∀ a : ℤ, ∀ x ∈ l, foldlMin a l ≤ x := by
  induction l with
  | nil => intro a x hx; cases hx
  | cons y l ih =>
    intro a x hx
    rcases List.mem_cons.mp hx with h | h
    · subst h
      calc foldlMin (min a x) l ≤ min a x := foldlMin_le_init l (min a x)
        _ ≤ x := min_le_right a x
    · exact ih (min a y) x h

theorem foldlMin_mem (l : List ℤ) : ∀ a : ℤ, foldlMin a l = a ∨ foldlMin a l ∈ l := by
  induction l with
  | nil => intro a; exact Or.inl rfl
  | cons x l ih =>
    intro a
    rcases ih (min a x) with h | h
    · rcases min_choice a x with hm | hm
      · exact Or.inl (by rw [show foldlMin a (x :: l) = foldlMin (min a x) l from rfl, h, hm])
      · refine Or.inr (List.mem_cons.mpr (Or.inl ?_))
        rw [show foldlMin a (x :: l) = foldlMin (min a x) l from rfl, h, hm]
    · exact Or.inr (List.mem_cons.mpr (Or.inr h))

theorem foldlMax_le_init (l : List ℤ) : ∀ a : ℤ, a ≤ foldlMax a l := by
  induction l with
  | nil => intro a; exact le_refl a
  | cons x l ih =>
    intro a
    calc a ≤ max a x := le_max_left a x
      _ ≤ foldlMax (max a x) l := ih (max a x)

theorem foldlMax_le_mem (l : List ℤ) : ∀ a : ℤ, ∀ x ∈ l, x ≤ foldlMax a l := by
  induction l with
  | nil => intro a x hx; cases hx
  | cons y l ih =>
    intro a x hx
    rcases List.mem_cons.mp hx with h | h
    · subst h
      calc x ≤ max a x := le_max_right a x
        _ ≤ foldlMax (max a x) l := foldlMax_le_init l (max a x)
    · exact ih (max a y) x h

theorem foldlMax_mem (l : List ℤ) : ∀ a : ℤ, foldlMax a l = a ∨ foldlMax a l ∈ l := by
  induction l with
  | nil => intro a; exact Or.inl rfl
  | cons x l ih =>
    intro a
    rcases ih (max a x) with h | h
    · rcases max_choice a x with hm | hm
      · exact Or.inl (by rw [show foldlMax a (x :: l) = foldlMax (max a x) l from rfl, h, hm])
      · refine Or.inr (List.mem_cons.mpr (Or.inl ?_))
        rw [show foldlMax a (x :: l) = foldlMax (max a x) l from rfl, h, hm]
    · exact Or.inr (List.mem_cons.mpr (Or.inr h))

/-- C8: for every non-empty note list, `normalize_notes notes None None` is
a no-op on the list — the filtered result is the input list itself (every
note kept, order and length preserved) — and the returned bounds are the
minimum and maximum pitch present in the notes. -/
theorem C8_default_normalize_noop (notes : List NoteEvent) (h : notes ≠ []) :
    (normalize_notes notes none none).1 = notes ∧
    (normalize_notes notes none none).2.1 ∈ notes.map NoteEvent.pitch ∧
    (∀ p ∈ notes.map NoteEvent.pitch, (normalize_notes notes none none).2.1 ≤ p) ∧
    (normalize_notes notes none none).2.2 ∈ notes.map NoteEvent.pitch ∧
    (∀ p ∈ notes.map NoteEvent.pitch, p ≤ (normalize_notes notes none none).2.2) := by
  match notes, h with
  | n :: ns, _ =>
    have hval : normalize_notes (n :: ns) none none =
        ((n :: ns).filter fun e =>
            decide (foldlMin n.pitch (ns.map NoteEvent.pitch) ≤ e.pitch) &&
            decide (e.pitch ≤ foldlMax n.pitch (ns.map NoteEvent.pitch)),
          foldlMin n.pitch (ns.map NoteEvent.pitch),
          foldlMax n.pitch (ns.map NoteEvent.pitch)) := rfl
    have hminle : ∀ p ∈ (n :: ns).map NoteEvent.pitch,
        foldlMin n.pitch (ns.map NoteEvent.pitch) ≤ p := by
      intro p hp
      rw [List.map_cons] at hp
      rcases List.mem_cons.mp hp with hp' | hp'
      · exact hp' ▸ foldlMin_le_init (ns.map NoteEvent.pitch) n.pitch
      · exact foldlMin_le_mem (ns.map NoteEvent.pitch) n.pitch p hp'
    have hmaxle : ∀ p ∈ (n :: ns).map NoteEvent.pitch,
        p ≤ foldlMax n.pitch (ns.map NoteEvent.pitch) := by
      intro p hp
      rw [List.map_cons] at hp
      rcases List.mem_cons.mp hp with hp' | hp'
      · exact hp' ▸ foldlMax_le_init (ns.map NoteEvent.pitch) n.pitch
      · exact foldlMax_le_mem (ns.map NoteEvent.pitch) n.pitch p hp'
    refine ⟨?_, ?_, ?_, ?_, ?_⟩
    · rw [hval]
      refine List.filter_eq_self.mpr ?_
      intro e he
      have h1 := hminle e.pitch (List.mem_map_of_mem NoteEvent.pitch he)
      have h2 := hmaxle e.pitch (List.mem_map_of_mem NoteEvent.pitch he)
      simp [h1, h2]
    · rw [hval]
      rcases foldlMin_mem (ns.map NoteEvent.pitch) n.pitch with h' | h'
      · simp [h']
      · simp only [List.map_cons, List.mem_cons]
        exact Or.inr h'
    · rw [hval]; exact hminle
    · rw [hval]
      rcases foldlMax_mem (ns.map NoteEvent.pitch) n.pitch with h' | h'
      · simp [h']
      · simp only [List.map_cons, List.mem_cons]
        exact Or.inr h'
    · rw [hval]; exact hmaxle

/-- C8 witness: the no-op normalization at a concrete two-note list. -/
theorem C8_witness :
    (normalize_notes [⟨0, 1, 60, 90, 0, 0⟩, ⟨1, 2, 72, 80, 0, 0⟩] none none).1 =
        [⟨0, 1, 60, 90, 0, 0⟩, ⟨1, 2, 72, 80, 0, 0⟩] ∧
    (normalize_notes [⟨0, 1, 60, 90, 0, 0⟩, ⟨1, 2, 72, 80, 0, 0⟩] none none).2.1 ∈
        ([⟨0, 1, 60, 90, 0, 0⟩, ⟨1, 2, 72, 80, 0, 0⟩] : List NoteEvent).map NoteEvent.pitch ∧
    (∀ p ∈ ([⟨0, 1, 60, 90, 0, 0⟩, ⟨1, 2, 72, 80, 0, 0⟩] : List NoteEvent).map NoteEvent.pitch,
      (normalize_notes [⟨0, 1, 60, 90, 0, 0⟩, ⟨1, 2, 72, 80, 0, 0⟩] none none).2.1 ≤ p) ∧
    (normalize_notes [⟨0, 1, 60, 90, 0, 0⟩, ⟨1, 2, 72, 80, 0, 0⟩] none none).2.2 ∈
        ([⟨0, 1, 60, 90, 0, 0⟩, ⟨1, 2, 72, 80, 0, 0⟩] : List NoteEvent).map NoteEvent.pitch ∧
    (∀ p ∈ ([⟨0, 1, 60, 90, 0, 0⟩, ⟨1, 2, 72, 80, 0, 0⟩] : List NoteEvent).map NoteEvent.pitch,
      p ≤ (normalize_notes [⟨0, 1, 60, 90, 0, 0⟩, ⟨1, 2, 72, 80, 0, 0⟩] none none).2.2) :=
  C8_default_normalize_noop [⟨0, 1, 60, 90, 0, 0⟩, ⟨1, 2, 72, 80, 0, 0⟩] (by simp)

/-! ## C2: the converter is monotone, zero at zero and non-negative -/

theorem tick2second_nonneg {tick tpq tempo : ℤ} (ht : 0 ≤ tick) (hq : 0 < tpq)
    (hm : 0 ≤ tempo) : 0 ≤ tick2second tick tpq tempo := by
  unfold tick2second
  have h1 : (0 : ℚ) ≤ (tick : ℚ) := by exact_mod_cast ht
  have h2 : (0 : ℚ) ≤ (tempo : ℚ) := by exact_mod_cast hm
  have h3 : (0 : ℚ) ≤ (tpq : ℚ) := by exact_mod_cast hq.le
  have : (0 : ℚ) ≤ (tempo : ℚ) * (1 / 1000000) := by positivity
  exact mul_nonneg h1 (div_nonneg this h3)

theorem tick2second_mono {t1 t2 tpq tempo : ℤ} (h : t1 ≤ t2) (hq : 0 < tpq)
    (hm : 0 ≤ tempo) : tick2second t1 tpq tempo ≤ tick2second t2 tpq tempo := by
  unfold tick2second
  have h1 : (t1 : ℚ) ≤ (t2 : ℚ) := by exact_mod_cast h
  have h2 : (0 : ℚ) ≤ (tempo : ℚ) := by exact_mod_cast hm
  have h3 : (0 : ℚ) ≤ (tpq : ℚ) := by exact_mod_cast hq.le
  have : (0 : ℚ) ≤ (tempo : ℚ) * (1 / 1000000) := by positivity
  exact mul_le_mul_of_nonneg_right h1 (div_nonneg this h3)

/-- The trailing `remaining`-step of the segment walk is non-negative. -/
theorem finishStep_nonneg {a pt tpq ptm : ℤ} (hq : 0 < tpq) (hptm : 0 ≤ ptm) :
    0 ≤ (if 0 < a - pt then tick2second (a - pt) tpq ptm else 0) := by
  split
  · exact tick2second_nonneg (by omega) hq hptm
  · exact le_refl 0

/-- The trailing `remaining`-step of the segment walk is monotone in the
target tick. -/
theorem finishStep_mono {a b pt tpq ptm : ℤ} (h : a ≤ b) (hq : 0 < tpq)
    (hptm : 0 ≤ ptm) :
    (if 0 < a - pt then tick2second (a - pt) tpq ptm else 0) ≤
      (if 0 < b - pt then tick2second (b - pt) tpq ptm else 0) := by
  by_cases h1 : 0 < a - pt
  · rw [if_pos h1, if_pos (by omega)]
    exact tick2second_mono (by omega) hq hptm
  · rw [if_neg h1]
    exact finishStep_nonneg hq hptm

theorem restSeconds_nonneg (tpq : ℤ) (hq : 0 < tpq) :
    ∀ rest : List (ℤ × ℤ), (∀ p ∈ rest, 0 ≤ p.2) →
    ∀ tick prev_tick prev_tempo : ℤ, 0 ≤ prev_tempo →
      0 ≤ restSeconds tick tpq prev_tick prev_tempo rest := by
  intro rest
  induction rest with
  | nil =>
    intro _ tick pt ptm hptm
    exact finishStep_nonneg hq hptm
  | cons c rest ih =>
    obtain ⟨ct, cm⟩ := c
    intro hrest tick pt ptm hptm
    have hcm : 0 ≤ cm := hrest (ct, cm) (List.mem_cons_self _ _)
    have hrest' : ∀ p ∈ rest, 0 ≤ p.2 := fun p hp => hrest p (List.mem_cons_of_mem _ hp)
    show 0 ≤ restSeconds tick tpq pt ptm ((ct, cm) :: rest)
    rw [restSeconds]
    split
    · exact finishStep_nonneg hq hptm
    · exact add_nonneg (finishStep_nonneg hq hptm) (ih hrest' tick ct cm hcm)

theorem restSeconds_mono (tpq : ℤ) (hq : 0 < tpq) :
    ∀ rest : List (ℤ × ℤ), (∀ p ∈ rest, 0 ≤ p.2) →
    ∀ tick1 tick2 prev_tick prev_tempo : ℤ, tick1 ≤ tick2 → 0 ≤ prev_tempo →
      restSeconds tick1 tpq prev_tick prev_tempo rest ≤
        restSeconds tick2 tpq prev_tick prev_tempo rest := by
  intro rest
  induction rest with
  | nil =>
    intro _ t1 t2 pt ptm h12 hptm
    exact finishStep_mono h12 hq hptm
  | cons c rest ih =>
    obtain ⟨ct, cm⟩ := c
    intro hrest t1 t2 pt ptm h12 hptm
    have hcm : 0 ≤ cm := hrest (ct, cm) (List.mem_cons_self _ _)
    have hrest' : ∀ p ∈ rest, 0 ≤ p.2 := fun p hp => hrest p (List.mem_cons_of_mem _ hp)
    rw [restSeconds, restSeconds]
    by_cases hb2 : t2 ≤ ct
    · rw [if_pos hb2, if_pos (le_trans h12 hb2)]
      exact finishStep_mono h12 hq hptm
    · rw [if_neg hb2]
      by_cases hb1 : t1 ≤ ct
      · rw [if_pos hb1]
        calc (if 0 < t1 - pt then tick2second (t1 - pt) tpq ptm else 0)
            ≤ (if 0 < ct - pt then tick2second (ct - pt) tpq ptm else 0) :=
              finishStep_mono hb1 hq hptm
          _ ≤ (if 0 < ct - pt then tick2second (ct - pt) tpq ptm else 0)
              + restSeconds t2 tpq ct cm rest :=
              le_add_of_nonneg_right (restSeconds_nonneg tpq hq rest hrest' t2 ct cm hcm)
      · rw [if_neg hb1]
        exact add_le_add_left (ih hrest' t1 t2 ct cm h12 hcm) _

/-- C2: for every tempo map that is sorted ascending by tick, contains an
entry at tick 0 and has only positive `micros_per_beat`, and every positive
`ticks_per_beat`, the converter never fails, is monotone in the tick
(`tick1 ≤ tick2` gives `seconds tick1 ≤ seconds tick2`), returns a
non-negative result, and returns exactly `0` at tick 0. -/
theorem C2_converter_monotone (tm : List (ℤ × ℤ)) (tpq tick1 tick2 : ℤ)
    (hsorted : tm.Pairwise fun p q => p.1 ≤ q.1)
    (hzero : ∃ m, (0, m) ∈ tm)
    (hpos : ∀ p ∈ tm, 0 < p.2)
    (htpq : 0 < tpq) (h12 : tick1 ≤ tick2) :
    ∃ s1 s2, tick_to_seconds tick1 tpq tm = some s1 ∧
      tick_to_seconds tick2 tpq tm = some s2 ∧ s1 ≤ s2 ∧ 0 ≤ s1 ∧
      tick_to_seconds 0 tpq tm = some 0 := by
  obtain ⟨m, hm⟩ := hzero
  match tm, hm with
  | (t0, m0) :: rest, _ =>
    have hm0 : 0 ≤ m0 := (hpos (t0, m0) (List.mem_cons_self _ _)).le
    have hrest : ∀ p ∈ rest, 0 ≤ p.2 := fun p hp =>
      (hpos p (List.mem_cons_of_mem _ hp)).le
    have hz : tick_to_seconds 0 tpq ((t0, m0) :: rest) = some 0 := by
      simp [tick_to_seconds]
    by_cases h2 : tick2 ≤ 0
    · refine ⟨0, 0, ?_, ?_, le_refl 0, le_refl 0, hz⟩
      · simp [tick_to_seconds, le_trans h12 h2]
      · simp [tick_to_seconds, h2]
    · by_cases h1 : tick1 ≤ 0
      · refine ⟨0, restSeconds tick2 tpq t0 m0 rest, ?_, ?_, ?_, le_refl 0, hz⟩
        · simp [tick_to_seconds, h1]
        · simp [tick_to_seconds, h2]
        · exact restSeconds_nonneg tpq htpq rest hrest tick2 t0 m0 hm0
      · refine ⟨restSeconds tick1 tpq t0 m0 rest, restSeconds tick2 tpq t0 m0 rest,
          ?_, ?_, ?_, ?_, hz⟩
        · simp [tick_to_seconds, h1]
        · simp [tick_to_seconds, h2]
        · exact restSeconds_mono tpq htpq rest hrest tick1 tick2 t0 m0 h12 hm0
        · exact restSeconds_nonneg tpq htpq rest hrest tick1 t0 m0 hm0

/-- C2 witness: monotonicity instantiated on the two-segment map at ticks
480 ≤ 960. -/
theorem C2_witness :
    ∃ s1 s2, tick_to_seconds 480 480 [(0, 500000), (480, 250000)] = some s1 ∧
      tick_to_seconds 960 480 [(0, 500000), (480, 250000)] = some s2 ∧
      s1 ≤ s2 ∧ 0 ≤ s1 ∧
      tick_to_seconds 0 480 [(0, 500000), (480, 250000)] = some 0 :=
  C2_converter_monotone [(0, 500000), (480, 250000)] 480 480 960
    (by simp) ⟨500000, by simp⟩ (by decide) (by norm_num) (by norm_num)

/-! ## C4: invariants of emitted NoteEvents -/

/-- MIDI-range well-formedness of a decoded message, per the external
interface: channels 0–15, pitches 0–127, velocities 0–127, positive
tempos. -/
def ValidData : MsgData → Prop
  | MsgData.note_on ch p v => 0 ≤ ch ∧ ch ≤ 15 ∧ 0 ≤ p ∧ p ≤ 127 ∧ 0 ≤ v ∧ v ≤ 127
  | MsgData.note_off ch p v => 0 ≤ ch ∧ ch ≤ 15 ∧ 0 ≤ p ∧ p ≤ 127 ∧ 0 ≤ v ∧ v ≤ 127
  | MsgData.set_tempo t => 0 < t
  | MsgData.other => True

instance : DecidablePred ValidData := fun d =>
  match d with
  | MsgData.note_on _ _ _ => inferInstanceAs (Decidable (_ ∧ _))
  | MsgData.note_off _ _ _ => inferInstanceAs (Decidable (_ ∧ _))
  | MsgData.set_tempo _ => inferInstanceAs (Decidable (_ < _))
  | MsgData.other => inferInstanceAs (Decidable True)

/-- The invariant claimed for every emitted note. -/
def GoodNote (e : NoteEvent) : Prop :=
  e.start_s < e.end_s ∧ 0 ≤ e.pitch ∧ e.pitch ≤ 127 ∧ 1 ≤ e.velocity

theorem dictInsert_mem {κ β : Type} [DecidableEq κ] {d : List (κ × β)} {k : κ}
    {v : β} {q : κ × β} (h : q ∈ dictInsert d k v) : q ∈ d ∨ q = (k, v) := by
  unfold dictInsert at h
  split at h
  · rcases List.mem_map.mp h with ⟨p, hp, hfp⟩
    by_cases hk : p.1 = k
    · right
      rw [← hfp]
      simp [hk]
    · left
      rw [← hfp]
      simpa [hk] using hp
  · rcases List.mem_append.mp h with h' | h'
    · exact Or.inl h'
    · right
      simpa using h'

theorem dictGet?_mem {κ β : Type} [DecidableEq κ] {d : List (κ × β)} {k : κ}
    {v : β} (h : dictGet? d k = some v) : (k, v) ∈ d := by
  unfold dictGet? at h
  cases hf : d.find? fun q => decide (q.1 = k) with
  | none => rw [hf] at h; cases h
  | some pr =>
    rw [hf] at h
    have hdk : decide (pr.1 = k) = true := by
      have hq := List.find?_some (p := fun q : κ × β => decide (q.1 = k)) hf
      simpa using hq
    have hk : pr.1 = k := of_decide_eq_true hdk
    have hmem : pr ∈ d := List.mem_of_find?_eq_some hf
    have hv : pr.2 = v := by simpa using h
    have hkv : (k, v) = pr := by rw [← hk, ← hv]
    rwa [hkv]

theorem dictPop_subset {κ β : Type} [DecidableEq κ] {d : List (κ × β)} {k : κ}
    {q : κ × β} (h : q ∈ dictPop d k) : q ∈ d :=
  (List.eraseP_sublist d).subset h

theorem noteOffStep_inv {tpq : ℤ} {tm : List (ℤ × ℤ)} {track_idx abs_tick ch p : ℤ}
    {active : List ((ℤ × ℤ) × ℤ × ℤ)} {events : List NoteEvent}
    {a : List ((ℤ × ℤ) × ℤ × ℤ)} {es : List NoteEvent}
    (hact : ∀ q ∈ active, 1 ≤ q.2.2)
    (hev : ∀ e ∈ events, GoodNote e)
    (hp : 0 ≤ p ∧ p ≤ 127)
    (h : noteOffStep tpq tm track_idx abs_tick ch p active events = some (a, es)) :
    (∀ q ∈ a, 1 ≤ q.2.2) ∧ (∀ e ∈ es, GoodNote e) := by
  unfold noteOffStep at h
  cases hg : dictGet? active (ch, p) with
  | none =>
    rw [hg] at h
    obtain ⟨rfl, rfl⟩ : active = a ∧ events = es := by
      constructor <;> injection h with h' <;> simp_all
    exact ⟨hact, hev⟩
  | some sv =>
    obtain ⟨st, vel⟩ := sv
    simp only [hg] at h
    have hvel : 1 ≤ vel := hact ((ch, p), (st, vel)) (dictGet?_mem hg)
    have hpop : ∀ q ∈ dictPop active (ch, p), 1 ≤ q.2.2 := fun q hq =>
      hact q (dictPop_subset hq)
    cases hs : tick_to_seconds st tpq tm with
    | none => simp only [hs] at h; cases h
    | some start_s =>
      cases he2 : tick_to_seconds abs_tick tpq tm with
      | none => simp only [hs, he2] at h; cases h
      | some end_s =>
        simp only [hs, he2] at h
        by_cases hle : end_s ≤ start_s
        · rw [if_pos hle] at h
          obtain ⟨rfl, rfl⟩ : dictPop active (ch, p) = a ∧ events = es := by
            constructor <;> injection h with h' <;> simp_all
          exact ⟨hpop, hev⟩
        · rw [if_neg hle] at h
          obtain ⟨rfl, rfl⟩ :
              dictPop active (ch, p) = a ∧
                events ++ [⟨start_s, end_s, p, vel, ch, track_idx⟩] = es := by
            constructor <;> injection h with h' <;> simp_all
          refine ⟨hpop, ?_⟩
          intro e he
          rcases List.mem_append.mp he with he' | he'
          · exact hev e he'
          · have : e = ⟨start_s, end_s, p, vel, ch, track_idx⟩ := by simpa using he'
            subst this
            exact ⟨not_le.mp hle, hp.1, hp.2, hvel⟩

theorem processMsgs_inv (tpq : ℤ) (tm : List (ℤ × ℤ)) (track_idx : ℤ) :
    ∀ msgs : List MidiMsg, (∀ m ∈ msgs, ValidData m.data) →
    ∀ (abs_tick : ℤ) (active : List ((ℤ × ℤ) × ℤ × ℤ)) (events res : List NoteEvent),
    (∀ q ∈ active, 1 ≤ q.2.2) → (∀ e ∈ events, GoodNote e) →
    processMsgs tpq tm track_idx abs_tick active events msgs = some res →
    ∀ e ∈ res, GoodNote e := by
  intro msgs
  induction msgs with
  | nil =>
    intro _ abs_tick active events res _ hev h
    obtain rfl : events = res := by injection h
    exact hev
  | cons m rest ih =>
    intro hval abs_tick active events res hact hev h
    have hvm : ValidData m.data := hval m (List.mem_cons_self _ _)
    have hval' : ∀ m' ∈ rest, ValidData m'.data := fun m' hm' =>
      hval m' (List.mem_cons_of_mem _ hm')
    obtain ⟨time, data⟩ := m
    cases data with
    | note_on ch p v =>
      simp only [processMsgs] at h
      by_cases hv : 0 < v
      · rw [if_pos hv] at h
        refine ih hval' _ _ _ _ ?_ hev h
        intro q hq
        rcases dictInsert_mem hq with hq' | hq'
        · exact hact q hq'
        · subst hq'
          show (1 : ℤ) ≤ v
          omega
      · rw [if_neg hv] at h
        by_cases hv0 : v = 0
        · rw [if_pos hv0] at h
          cases hoff : noteOffStep tpq tm track_idx (abs_tick + (time : ℤ)) ch p
              active events with
          | none => rw [hoff] at h; cases h
          | some ae =>
            obtain ⟨a, es⟩ := ae
            rw [hoff] at h
            have hinv := noteOffStep_inv hact hev ⟨hvm.2.2.1, hvm.2.2.2.1⟩ hoff
            exact ih hval' _ _ _ _ hinv.1 hinv.2 h
        · rw [if_neg hv0] at h
          exact ih hval' _ _ _ _ hact hev h
    | note_off ch p v =>
      simp only [processMsgs] at h
      cases hoff : noteOffStep tpq tm track_idx (abs_tick + (time : ℤ)) ch p
          active events with
      | none => rw [hoff] at h; cases h
      | some ae =>
        obtain ⟨a, es⟩ := ae
        rw [hoff] at h
        have hinv := noteOffStep_inv hact hev ⟨hvm.2.2.1, hvm.2.2.2.1⟩ hoff
        exact ih hval' _ _ _ _ hinv.1 hinv.2 h
    | set_tempo t =>
      simp only [processMsgs] at h
      exact ih hval' _ _ _ _ hact hev h
    | other =>
      simp only [processMsgs] at h
      exact ih hval' _ _ _ _ hact hev h

theorem processTracks_inv (tpq : ℤ) (tm : List (ℤ × ℤ)) :
    ∀ tracks : List (List MidiMsg), (∀ tr ∈ tracks, ∀ m ∈ tr, ValidData m.data) →
    ∀ (idx : ℤ) (events res : List NoteEvent), (∀ e ∈ events, GoodNote e) →
    processTracks tpq tm idx events tracks = some res →
    ∀ e ∈ res, GoodNote e := by
  intro tracks
  induction tracks with
  | nil =>
    intro _ idx events res hev h
    obtain rfl : events = res := by injection h
    exact hev
  | cons tr rest ih =>
    intro hval idx events res hev h
    have hvtr : ∀ m ∈ tr, ValidData m.data := hval tr (List.mem_cons_self _ _)
    have hval' : ∀ tr' ∈ rest, ∀ m ∈ tr', ValidData m.data := fun tr' htr' =>
      hval tr' (List.mem_cons_of_mem _ htr')
    simp only [processTracks] at h
    cases hpm : processMsgs tpq tm idx 0 [] events tr with
    | none => rw [hpm] at h; cases h
    | some events' =>
      rw [hpm] at h
      have hev' := processMsgs_inv tpq tm idx tr hvtr 0 [] events events'
        (by intro q hq; cases hq) hev hpm
      exact ih hval' _ _ _ hev' h

/-- C4: for every input whose messages carry MIDI-range fields, every
`NoteEvent` the assembler emits satisfies `end_s > start_s` strictly,
`0 ≤ pitch ≤ 127` and `velocity ≥ 1`; notes with `end_s ≤ start_s` are
dropped and never emitted. -/
theorem C4_note_event_invariants (tracks : List (List MidiMsg)) (tpq : ℤ)
    (notes : List NoteEvent)
    (hvalid : ∀ tr ∈ tracks, ∀ m ∈ tr, ValidData m.data)
    (hout : parse_midi_notes tracks tpq = some notes) :
    ∀ e ∈ notes, e.start_s < e.end_s ∧ 0 ≤ e.pitch ∧ e.pitch ≤ 127 ∧ 1 ≤ e.velocity := by
  unfold parse_midi_notes at hout
  cases hpt : processTracks tpq (collect_tempo_map tracks) 0 [] tracks with
  | none => rw [hpt] at hout; cases hout
  | some evs =>
    rw [hpt] at hout
    have hsorted : notes = List.insertionSort noteLE evs := by
      simpa using hout.symm
    have hgood := processTracks_inv tpq (collect_tempo_map tracks) tracks hvalid 0 [] evs
      (by intro e he; cases he) hpt
    intro e he
    have : e ∈ evs := (List.perm_insertionSort noteLE evs).mem_iff.mp (hsorted ▸ he)
    exact hgood e this

/-- C4 witness: the invariants instantiated on the one note emitted by the
concrete overwrite scenario track. -/
theorem C4_witness :
    (⟨1/96, 1/48, 60, 90, 0, 0⟩ : NoteEvent).start_s <
        (⟨1/96, 1/48, 60, 90, 0, 0⟩ : NoteEvent).end_s ∧
      0 ≤ (⟨1/96, 1/48, 60, 90, 0, 0⟩ : NoteEvent).pitch ∧
      (⟨1/96, 1/48, 60, 90, 0, 0⟩ : NoteEvent).pitch ≤ 127 ∧
      1 ≤ (⟨1/96, 1/48, 60, 90, 0, 0⟩ : NoteEvent).velocity :=
  C4_note_event_invariants
    [[⟨0, MsgData.note_on 0 60 100⟩, ⟨10, MsgData.note_on 0 60 90⟩,
      ⟨10, MsgData.note_off 0 60 0⟩]] 480 [⟨1/96, 1/48, 60, 90, 0, 0⟩]
    (by decide)
    (by norm_num [parse_midi_notes, processTracks, processMsgs, noteOffStep, dictGet?,
      dictPop, dictInsert, collect_tempo_map, seedZero, dedupSort, collectChanges, scanTempoTrack,
      tick_to_seconds, restSeconds, tick2second, keyLE, noteLE, List.find?, List.eraseP])
    (⟨1/96, 1/48, 60, 90, 0, 0⟩ : NoteEvent) (List.mem_singleton.mpr rfl)

/-! ## C7: invariants of the tempo-map builder -/

theorem filter_eq_nil_keys {t : ℤ} {d : List (ℤ × ℤ)} (h : ∀ p ∈ d, p.1 ≠ t) :
    (d.filter fun p => decide (p.1 = t)) = [] :=
  List.filter_eq_nil_iff.mpr fun p hp => by simpa using h p hp

theorem mapUpdate_id {k v : ℤ} {d : List (ℤ × ℤ)} (h : ∀ p ∈ d, p.1 ≠ k) :
    (d.map fun p => if p.1 = k then (k, v) else p) = d := by
  have hcong : ∀ p ∈ d, (if p.1 = k then (k, v) else p) = id p := fun p hp => by
    simp [h p hp]
  rw [List.map_congr_left hcong, List.map_id]

theorem mapUpdate_filter_eq {k v : ℤ} : ∀ {d : List (ℤ × ℤ)},
    (d.map Prod.fst).Nodup → k ∈ d.map Prod.fst →
    ((d.map fun p => if p.1 = k then (k, v) else p).filter fun p => decide (p.1 = k))
      = [(k, v)] := by
  intro d
  induction d with
  | nil => intro _ h; cases h
  | cons q rest ih =>
    intro hnd hk
    rw [List.map_cons, List.nodup_cons] at hnd
    by_cases hq : q.1 = k
    · have hrest : ∀ p ∈ rest, p.1 ≠ k := by
        intro p hp hpk
        apply hnd.1
        rw [hq, ← hpk]
        exact List.mem_map_of_mem Prod.fst hp
      rw [List.map_cons, if_pos hq, mapUpdate_id hrest,
        List.filter_cons_of_pos (by simp), filter_eq_nil_keys hrest]
    · have hk' : k ∈ rest.map Prod.fst := by
        rcases List.mem_map.mp hk with ⟨p, hp, hpk⟩
        rcases List.mem_cons.mp hp with rfl | hp'
        · exact absurd hpk hq
        · exact hpk ▸ List.mem_map_of_mem Prod.fst hp'
      rw [List.map_cons, if_neg hq, List.filter_cons_of_neg (by simpa using hq)]
      exact ih hnd.2 hk'

theorem dictInsert_filter_eq {d : List (ℤ × ℤ)} {k v : ℤ}
    (hnd : (d.map Prod.fst).Nodup) :
    ((dictInsert d k v).filter fun p => decide (p.1 = k)) = [(k, v)] := by
  unfold dictInsert
  split
  · next hany =>
    refine mapUpdate_filter_eq hnd ?_
    rcases List.any_eq_true.mp hany with ⟨p, hp, hpk⟩
    exact (of_decide_eq_true hpk) ▸ List.mem_map_of_mem Prod.fst hp
  · next hany =>
    have hnot : ∀ p ∈ d, p.1 ≠ k := by
      intro p hp hpk
      exact hany (List.any_eq_true.mpr ⟨p, hp, decide_eq_true hpk⟩)
    rw [List.filter_append, filter_eq_nil_keys hnot]
    simp

theorem mapUpdate_filter_ne {k v t : ℤ} (hne : k ≠ t) : ∀ d : List (ℤ × ℤ),
    ((d.map fun p => if p.1 = k then (k, v) else p).filter fun p => decide (p.1 = t)) =
      d.filter fun p => decide (p.1 = t) := by
  intro d
  induction d with
  | nil => rfl
  | cons q rest ih =>
    rw [List.map_cons]
    by_cases hqk : q.1 = k
    · rw [if_pos hqk, List.filter_cons_of_neg (by simpa using hne),
        List.filter_cons_of_neg (by simp [hqk, hne]), ih]
    · rw [if_neg hqk]
      by_cases hqt : q.1 = t
      · rw [List.filter_cons_of_pos (by simpa using hqt),
          List.filter_cons_of_pos (by simpa using hqt), ih]
      · rw [List.filter_cons_of_neg (by simpa using hqt),
          List.filter_cons_of_neg (by simpa using hqt), ih]

theorem dictInsert_filter_ne {d : List (ℤ × ℤ)} {k v t : ℤ} (hne : k ≠ t) :
    ((dictInsert d k v).filter fun p => decide (p.1 = t)) =
      d.filter fun p => decide (p.1 = t) := by
  unfold dictInsert
  split
  · exact mapUpdate_filter_ne hne d
  · rw [List.filter_append]
    have hsing : List.filter (fun p => decide (p.1 = t)) [(k, v)] = [] := by
      simp [hne]
    rw [hsing, List.append_nil]

theorem dictInsert_keys_nodup {d : List (ℤ × ℤ)} {k v : ℤ}
    (hnd : (d.map Prod.fst).Nodup) : ((dictInsert d k v).map Prod.fst).Nodup := by
  unfold dictInsert
  split
  · have hkeys : ((d.map fun p => if p.1 = k then (k, v) else p).map Prod.fst)
        = d.map Prod.fst := by
      rw [List.map_map]
      refine List.map_congr_left ?_
      intro p _
      by_cases hp : p.1 = k
      · simp [hp]
      · simp [hp]
    rw [hkeys]
    exact hnd
  · next hany =>
    have hnot : k ∉ d.map Prod.fst := by
      intro hk
      rcases List.mem_map.mp hk with ⟨p, hp, hpk⟩
      exact hany (List.any_eq_true.mpr ⟨p, hp, decide_eq_true hpk⟩)
    rw [List.map_append, List.nodup_append]
    refine ⟨hnd, List.nodup_singleton k, ?_⟩
    intro a ha hak
    rw [show List.map Prod.fst [(k, v)] = [k] from rfl, List.mem_singleton] at hak
    exact hnot (hak ▸ ha)

theorem foldDict_keys_nodup : ∀ (l d : List (ℤ × ℤ)), (d.map Prod.fst).Nodup →
    ((List.foldl (fun d p => dictInsert d p.1 p.2) d l).map Prod.fst).Nodup := by
  intro l
  induction l with
  | nil => intro d hnd; exact hnd
  | cons x xs ih =>
    intro d hnd
    rw [List.foldl_cons]
    exact ih _ (dictInsert_keys_nodup hnd)

theorem foldDict_mem : ∀ (l d : List (ℤ × ℤ)) (q : ℤ × ℤ),
    q ∈ List.foldl (fun d p => dictInsert d p.1 p.2) d l → q ∈ d ∨ q ∈ l := by
  intro l
  induction l with
  | nil => intro d q hq; exact Or.inl hq
  | cons x xs ih =>
    intro d q hq
    rw [List.foldl_cons] at hq
    rcases ih _ q hq with hq' | hq'
    · rcases dictInsert_mem hq' with hq'' | hq''
      · exact Or.inl hq''
      · refine Or.inr (List.mem_cons.mpr (Or.inl ?_))
        rw [hq'']
    · exact Or.inr (List.mem_cons.mpr (Or.inr hq'))

theorem foldDict_filter (t : ℤ) : ∀ (l d : List (ℤ × ℤ)), (d.map Prod.fst).Nodup →
    ((List.foldl (fun d p => dictInsert d p.1 p.2) d l).filter fun p => decide (p.1 = t)) =
      if (l.filter fun p => decide (p.1 = t)) = []
      then d.filter fun p => decide (p.1 = t)
      else ((l.filter fun p => decide (p.1 = t)).getLast?).toList := by
  intro l
  induction l with
  | nil =>
    intro d hnd
    simp
  | cons x xs ih =>
    obtain ⟨x1, x2⟩ := x
    intro d hnd
    rw [List.foldl_cons, ih _ (dictInsert_keys_nodup hnd)]
    by_cases hx : x1 = t
    · subst hx
      rw [List.filter_cons_of_pos (by simp)]
      by_cases hxs : (xs.filter fun p => decide (p.1 = x1)) = []
      · rw [if_pos hxs, if_neg (by simp), hxs, dictInsert_filter_eq hnd]
        rfl
      · rw [if_neg hxs, if_neg (by simp)]
        cases hfil : (xs.filter fun p => decide (p.1 = x1)) with
        | nil => exact absurd hfil hxs
        | cons y ys => rw [List.getLast?_cons_cons]
    · rw [List.filter_cons_of_neg (by simpa using hx), dictInsert_filter_ne hx]

theorem filter_orderedInsert_key (t : ℤ) (a : ℤ × ℤ) :
    ∀ l : List (ℤ × ℤ),
      ((List.orderedInsert keyLE a l).filter fun p => decide (p.1 = t)) =
        if a.1 = t then a :: (l.filter fun p => decide (p.1 = t))
        else l.filter fun p => decide (p.1 = t) := by
  intro l
  induction l with
  | nil =>
    rw [List.orderedInsert_nil]
    by_cases ha : a.1 = t
    · rw [if_pos ha, List.filter_cons_of_pos (by simpa using ha)]
    · rw [if_neg ha, List.filter_cons_of_neg (by simpa using ha)]
  | cons b bs ih =>
    simp only [List.orderedInsert]
    by_cases hab : keyLE a b
    · rw [if_pos hab]
      by_cases ha : a.1 = t
      · rw [if_pos ha, List.filter_cons_of_pos (by simpa using ha)]
      · rw [if_neg ha, List.filter_cons_of_neg (by simpa using ha)]
    · rw [if_neg hab]
      have hb : b.1 < a.1 := lt_of_not_le (fun hle => hab hle)
      by_cases ha : a.1 = t
      · have hbt : ¬ b.1 = t := by omega
        rw [if_pos ha, List.filter_cons_of_neg (by simpa using hbt),
          List.filter_cons_of_neg (by simpa using hbt), ih, if_pos ha]
      · rw [if_neg ha]
        by_cases hbt : b.1 = t
        · rw [List.filter_cons_of_pos (by simpa using hbt),
            List.filter_cons_of_pos (by simpa using hbt), ih, if_neg ha]
        · rw [List.filter_cons_of_neg (by simpa using hbt),
            List.filter_cons_of_neg (by simpa using hbt), ih, if_neg ha]

theorem filter_insertionSort_key (t : ℤ) :
    ∀ l : List (ℤ × ℤ),
      ((List.insertionSort keyLE l).filter fun p => decide (p.1 = t)) =
        l.filter fun p => decide (p.1 = t) := by
  intro l
  induction l with
  | nil => rfl
  | cons a l ih =>
    simp only [List.insertionSort]
    rw [filter_orderedInsert_key]
    by_cases ha : a.1 = t
    · rw [if_pos ha, ih, List.filter_cons_of_pos (by simpa using ha)]
    · rw [if_neg ha, ih, List.filter_cons_of_neg (by simpa using ha)]

theorem scanTempoTrack_le :
    ∀ (msgs : List MidiMsg) (abs_tick : ℤ), ∀ q ∈ scanTempoTrack abs_tick msgs,
      abs_tick ≤ q.1 := by
  intro msgs
  induction msgs with
  | nil => intro abs_tick q hq; cases hq
  | cons m rest ih =>
    obtain ⟨time, data⟩ := m
    intro abs_tick q hq
    have htime : (0 : ℤ) ≤ (time : ℤ) := Int.natCast_nonneg time
    cases data with
    | set_tempo tp =>
      simp only [scanTempoTrack] at hq
      rcases List.mem_cons.mp hq with rfl | hq'
      · simp only []
        omega
      · have := ih (abs_tick + (time : ℤ)) q hq'
        omega
    | note_on ch p v =>
      simp only [scanTempoTrack] at hq
      have := ih (abs_tick + (time : ℤ)) q hq
      omega
    | note_off ch p v =>
      simp only [scanTempoTrack] at hq
      have := ih (abs_tick + (time : ℤ)) q hq
      omega
    | other =>
      simp only [scanTempoTrack] at hq
      have := ih (abs_tick + (time : ℤ)) q hq
      omega

theorem collectChanges_nonneg (tracks : List (List MidiMsg)) :
    ∀ q ∈ collectChanges tracks, 0 ≤ q.1 := by
  intro q hq
  rcases List.mem_cons.mp hq with rfl | hq'
  · exact le_refl 0
  · rcases List.mem_flatten.mp hq' with ⟨l, hl, hql⟩
    rcases List.mem_map.mp hl with ⟨tr, _, rfl⟩
    exact scanTempoTrack_le tr 0 q hql

theorem pairwise_and {α : Type} {R S : α → α → Prop} :
    ∀ {l : List α}, l.Pairwise R → l.Pairwise S →
      l.Pairwise fun a b => R a b ∧ S a b := by
  intro l
  induction l with
  | nil => intro _ _; exact List.Pairwise.nil
  | cons x xs ih =>
    intro hR hS
    rw [List.pairwise_cons] at hR hS ⊢
    exact ⟨fun b hb => ⟨hR.1 b hb, hS.1 b hb⟩, ih hR.2 hS.2⟩

theorem dedupSort_filter (changes : List (ℤ × ℤ)) (t : ℤ) :
    ((dedupSort changes).filter fun p => decide (p.1 = t)) =
      ((changes.filter fun p => decide (p.1 = t)).getLast?).toList := by
  unfold dedupSort
  rw [filter_insertionSort_key, foldDict_filter t _ [] (by simp),
    filter_insertionSort_key]
  by_cases h : (changes.filter fun p => decide (p.1 = t)) = []
  · rw [if_pos h, h]
    rfl
  · rw [if_neg h]

theorem dedupSort_sorted (changes : List (ℤ × ℤ)) :
    List.Pairwise keyLE (dedupSort changes) :=
  List.sorted_insertionSort keyLE _

theorem dedupSort_keys_nodup (changes : List (ℤ × ℤ)) :
    ((dedupSort changes).map Prod.fst).Nodup := by
  unfold dedupSort
  have hperm := (List.perm_insertionSort keyLE
    (List.foldl (fun d p => dictInsert d p.1 p.2) []
      (List.insertionSort keyLE changes))).map Prod.fst
  exact hperm.nodup_iff.mpr (foldDict_keys_nodup _ [] (by simp))

theorem dedupSort_mem (changes : List (ℤ × ℤ)) (q : ℤ × ℤ)
    (hq : q ∈ dedupSort changes) : q ∈ changes := by
  unfold dedupSort at hq
  have h1 := (List.perm_insertionSort keyLE _).mem_iff.mp hq
  rcases foldDict_mem _ [] q h1 with h | h
  · cases h
  · exact (List.perm_insertionSort keyLE changes).mem_iff.mp h

theorem dedupSort_pairwise_lt (changes : List (ℤ × ℤ)) :
    List.Pairwise (fun p q : ℤ × ℤ => p.1 < q.1) (dedupSort changes) := by
  have hs : List.Pairwise keyLE (dedupSort changes) := dedupSort_sorted changes
  have hn : ((dedupSort changes).map Prod.fst).Nodup := dedupSort_keys_nodup changes
  have hne : List.Pairwise (fun p q : ℤ × ℤ => p.1 ≠ q.1) (dedupSort changes) :=
    List.pairwise_map.mp hn
  exact (pairwise_and hs hne).imp fun h => lt_of_le_of_ne h.1 h.2

/-- C7: for every input set of track event streams, the tempo-map builder's
output is strictly increasing by tick, always contains an entry at tick 0
(with 500000 µs/beat when no source tempo change sits at tick 0), and at
every tick exactly the change encountered last in the scan order survives:
the output filtered at tick `t` equals the last element (if any) of the
scan-order change list filtered at `t`. -/
theorem C7_tempo_map_invariants (tracks : List (List MidiMsg)) :
    List.Pairwise (fun p q : ℤ × ℤ => p.1 < q.1) (collect_tempo_map tracks) ∧
    (∃ m : ℤ, (0, m) ∈ collect_tempo_map tracks) ∧
    ((∀ q ∈ (tracks.map (scanTempoTrack 0)).flatten, q.1 ≠ 0) →
      (0, 500000) ∈ collect_tempo_map tracks) ∧
    (∀ t : ℤ, ((collect_tempo_map tracks).filter fun p => decide (p.1 = t)) =
      (((collectChanges tracks).filter fun p => decide (p.1 = t)).getLast?).toList) := by
  have hch0 : ((collectChanges tracks).filter fun p => decide (p.1 = 0)) =
      (0, 500000) :: (((tracks.map (scanTempoTrack 0)).flatten).filter
        fun p => decide (p.1 = 0)) := by
    unfold collectChanges
    rw [List.filter_cons_of_pos (by simp)]
  have hfilter0 := dedupSort_filter (collectChanges tracks) 0
  have h0 : ∃ m : ℤ, (0, m) ∈ dedupSort (collectChanges tracks) := by
    rw [hch0] at hfilter0
    cases hgl : (((0, 500000) :: (((tracks.map (scanTempoTrack 0)).flatten).filter
        fun p => decide (p.1 = 0))).getLast?) with
    | none =>
      rw [List.getLast?_eq_none_iff] at hgl
      cases hgl
    | some q =>
      rw [hgl] at hfilter0
      have hqmem : q ∈ dedupSort (collectChanges tracks) := by
        have hqf : q ∈ ((dedupSort (collectChanges tracks)).filter
            fun p => decide (p.1 = 0)) := by
          rw [hfilter0]
          exact List.mem_singleton.mpr rfl
        exact List.mem_of_mem_filter hqf
      have hq0 : q.1 = 0 := by
        have hql := List.mem_of_mem_getLast? (Option.mem_def.mpr hgl)
        rcases List.mem_cons.mp hql with heq | hmem
        · rw [heq]
        · have hdq : decide (q.1 = 0) = true :=
            List.of_mem_filter (p := fun p : ℤ × ℤ => decide (p.1 = 0)) hmem
          exact of_decide_eq_true hdq
      obtain ⟨q1, q2⟩ := q
      refine ⟨q2, ?_⟩
      have : q1 = 0 := hq0
      rw [← this]
      exact hqmem
  have hnonneg : ∀ q ∈ dedupSort (collectChanges tracks), 0 ≤ q.1 := fun q hq =>
    collectChanges_nonneg tracks q (dedupSort_mem _ q hq)
  obtain ⟨m0, hm0⟩ := h0
  have hseed : collect_tempo_map tracks = dedupSort (collectChanges tracks) := by
    unfold collect_tempo_map
    cases hds : dedupSort (collectChanges tracks) with
    | nil =>
      rw [hds] at hm0
      cases hm0
    | cons x rest =>
      have hx1 : x.1 = 0 := by
        rw [hds] at hm0
        rcases List.mem_cons.mp hm0 with heq | hmem
        · rw [← heq]
        · have hsorted : List.Pairwise keyLE (x :: rest) :=
            hds ▸ dedupSort_sorted (collectChanges tracks)
          have h1 : keyLE x (0, m0) := List.rel_of_sorted_cons hsorted _ hmem
          have h2 : 0 ≤ x.1 := hnonneg x (by rw [hds]; exact List.mem_cons_self x rest)
          have h1' : x.1 ≤ 0 := h1
          omega
      obtain ⟨x1, x2⟩ := x
      have hx1' : x1 = 0 := hx1
      simp [seedZero, hx1']
  refine ⟨?_, ?_, ?_, ?_⟩
  · rw [hseed]
    exact dedupSort_pairwise_lt _
  · refine ⟨m0, ?_⟩
    rw [hseed]
    exact hm0
  · intro hns
    have hfl : (((tracks.map (scanTempoTrack 0)).flatten).filter
        fun p => decide (p.1 = 0)) = [] := filter_eq_nil_keys hns
    have h500 : ((collect_tempo_map tracks).filter fun p => decide (p.1 = 0)) =
        [(0, 500000)] := by
      rw [hseed, dedupSort_filter, hch0, hfl]
      rfl
    have hmem : (0, 500000) ∈ (collect_tempo_map tracks).filter
        fun p => decide (p.1 = 0) := by
      rw [h500]
      exact List.mem_singleton.mpr rfl
    exact List.mem_of_mem_filter hmem
  · intro t
    rw [hseed, dedupSort_filter]

/-- C7 witness: the tick-0 conjunct instantiated at the empty track set,
whose scan records no source tempo change. -/
theorem C7_witness : (0, 500000) ∈ collect_tempo_map [] :=
  (C7_tempo_map_invariants []).2.2.1 (by simp)
